import Mathlib

/-!
Verification development for the Enterprise-Rag core (`rag_core.py`).

Strings from the Python side are modelled as `List Char`; Python whitespace
stripping (`str.strip`) is modelled with `Char.isWhitespace`.  Floating point
vectors are modelled over `ℚ` (exact arithmetic stands in for the float
computations performed by numpy/faiss).  Fallible calls (the OpenAI embedding
endpoint, `json.loads`) are modelled with `Option`; their failure is a raised
exception in the source, which propagates out of the pipeline call.
-/

/-! ## Chunker -/

/-- Python `text.strip()`: remove leading and trailing whitespace. -/
def pyStrip (l : List Char) : List Char :=
  ((l.dropWhile Char.isWhitespace).reverse.dropWhile Char.isWhitespace).reverse

/-- Fuelled form of the slice loop of `chunk_text`
(`text[i:i+max_chars] for i in range(0, len(text), max_chars)`); the fuel only
serves to make the recursion structural and is irrelevant once it is at least
`l.length`. -/
def chunksOfF : Nat → List Char → Nat → List (List Char)
  | 0, _, _ => []
  | fuel + 1, l, m =>
    if l = [] then []
    else if m = 0 then []
    else l.take m :: chunksOfF fuel (l.drop m) m

/-- The slices `text[i:i+max_chars] for i in range(0, len(text), max_chars)`
from `chunk_text`.  (For `m = 0` Python's `range` would raise; the claims only
concern `0 < m`, and we return `[]` in that unreachable case.) -/
def chunksOf (l : List Char) (m : Nat) : List (List Char) :=
  chunksOfF l.length l m

/-- `chunk_text` from `rag_core.py`:
strip the input, return `[]` if empty, otherwise slice into `max_chars`-sized
pieces and keep only the pieces whose own strip is non-empty
(`[c for c in chunks if c.strip()]`). -/
def chunk_text (text : List Char) (max_chars : Nat) : List (List Char) :=
  let t := pyStrip text
  if t = [] then []
  else (chunksOf t max_chars).filter (fun c => pyStrip c ≠ [])

/-! ## Data model -/

/-- An embedding vector; floats are modelled as exact rationals. -/
abbrev Vec := List ℚ

/-- Inner product of two vectors, as computed by faiss `IndexFlatIP`. -/
def dot (a b : Vec) : ℚ := (List.zipWith (fun x y => x * y) a b).sum

/-- `DIMENSIONS = 1536` from the configuration block of `rag_core.py`. -/
def DIMENSIONS : Nat := 1536

/-- One record of `store/meta.jsonl`: `{"source": path, "text": chunk}`. -/
structure MetaRecord where
  source : List Char
  text : List Char
deriving DecidableEq

/-- The persisted faiss index: its declared dimension plus the stored vectors
in insertion order (`IndexFlatIP` stores a flat ordered list). -/
structure FaissIndex where
  d : Nat
  vecs : List Vec
deriving DecidableEq

/-- The durable state of the system: the optional persisted index file
`store/index.faiss`, and the records of `store/meta.jsonl` (modelled here at
record level; the line level of the metadata file, where corruption lives, is
modelled separately by `readMetadata`). -/
structure Store where
  indexFile : Option FaissIndex
  metaFile : List MetaRecord
deriving DecidableEq

/-- The error classes a pipeline call can abort with:
`indexNotFound` models the `RuntimeError` raised by `retrieve` when
`store/index.faiss` does not exist; `embeddingProvider` models an exception
raised inside the OpenAI embeddings call; `faissDimension` models the
dimension assertion faiss performs in `Index.add`/`Index.search`. -/
inductive RagError where
  | indexNotFound
  | embeddingProvider
  | faissDimension
deriving DecidableEq

/-- A retrieval hit `{"score": ..., "source": ..., "text": ...}`. -/
structure Hit where
  score : ℚ
  source : List Char
  text : List Char
deriving DecidableEq

/-! ## faiss model

faiss is an external library; `IndexFlatIP` is modelled from its documented
contract: exact (exhaustive) inner-product search returning the `k` best
entries by descending score deterministically (ties by lower ordinal), with
missing entries labelled `-1` when fewer than `k` vectors are stored, and an
assertion that batch/query row width equals the index dimension in
`add`/`search`. -/

/-- Ranking relation on `(ordinal, score)` rows: higher score first, ties
broken by lower ordinal. -/
def searchRel (a b : Int × ℚ) : Prop := b.2 < a.2 ∨ (a.2 = b.2 ∧ a.1 ≤ b.1)

instance : DecidableRel searchRel := fun a b =>
  inferInstanceAs (Decidable (b.2 < a.2 ∨ (a.2 = b.2 ∧ a.1 ≤ b.1)))

instance : IsTotal (Int × ℚ) searchRel :=
  ⟨fun a b => by
    rcases lt_trichotomy a.2 b.2 with h | h | h
    · exact Or.inr (Or.inl h)
    · rcases le_total a.1 b.1 with h1 | h1
      · exact Or.inl (Or.inr ⟨h, h1⟩)
      · exact Or.inr (Or.inr ⟨h.symm, h1⟩)
    · exact Or.inl (Or.inl h)⟩

instance : IsTrans (Int × ℚ) searchRel :=
  ⟨fun a b c hab hbc => by
    rcases hab with h1 | ⟨h1, h1'⟩ <;> rcases hbc with h2 | ⟨h2, h2'⟩
    · exact Or.inl (h2.trans h1)
    · exact Or.inl (h2 ▸ h1)
    · exact Or.inl (h1 ▸ h2)
    · exact Or.inr ⟨h1.trans h2, h1'.trans h2'⟩⟩

/-- The exhaustive scoring pass of flat inner-product search: each stored
ordinal paired with the inner product of the query and that vector. -/
def scoreList (vecs : List Vec) (q : Vec) : List (Int × ℚ) :=
  vecs.enum.map (fun p => ((p.1 : Int), dot q p.2))

/-- All stored vectors ranked by descending score, ties by lower ordinal. -/
def faissRanked (vecs : List Vec) (q : Vec) : List (Int × ℚ) :=
  List.insertionSort searchRel (scoreList vecs q)

/-- The result row of faiss `Index.search` for one query: the top `k` ranked
entries, padded with ordinal `-1` when fewer than `k` vectors are stored. -/
def faissSearchCore (vecs : List Vec) (q : Vec) (k : Nat) : List (Int × ℚ) :=
  let top := (faissRanked vecs q).take k
  top ++ List.replicate (k - top.length) (-1, 0)

/-- faiss `Index.search` on a loaded index: faiss asserts that the query row
width equals the index dimension, then performs flat exact search. -/
def faissIndexSearch (idx : FaissIndex) (qv : Vec) (k : Nat) :
    Except RagError (List (Int × ℚ)) :=
  if qv.length = idx.d then .ok (faissSearchCore idx.vecs qv k)
  else .error .faissDimension

/-- faiss `Index.add`: appends the batch of vectors in order, assigning the
next ordinals; faiss asserts the batch's row width equals the index
dimension. -/
def faissAdd (idx : FaissIndex) (vs : List Vec) : Except RagError FaissIndex :=
  if vs.all (fun v => v.length = idx.d) then .ok ⟨idx.d, idx.vecs ++ vs⟩
  else .error .faissDimension

/-! ## Metadata store reader -/

/-- `_read_metadata`: parse every line of `store/meta.jsonl` with `json.loads`
(passed in as `parse`; `none` models a raised parse error on a malformed
line).  The list comprehension of the source evaluates the lines in order and
a parse failure anywhere aborts the whole read. -/
def readMetadata (parse : List Char → Option MetaRecord) :
    List (List Char) → Option (List MetaRecord)
  | [] => some []
  | l :: ls =>
    match parse l with
    | none => none
    | some r =>
      match readMetadata parse ls with
      | none => none
      | some rs => some (r :: rs)

/-! ## Ingestion pipeline -/

/-- `_ensure_index`: return the persisted index if the index file exists,
otherwise a fresh empty `IndexFlatIP(dim)`.  Note that no dimension check is
performed on the loaded index. -/
def ensureIndex (s : Store) (dim : Nat) : FaissIndex :=
  match s.indexFile with
  | some idx => idx
  | none => ⟨dim, []⟩

/-- The ordered `all_chunks` sequence built by `ingest_directory`.  A document
is a `(path, extracted text)` pair as supplied by the directory walk and
`load_text_from_path` (external collaborators); documents whose text chunks to
nothing contribute nothing (the `continue`). -/
def allChunksOf (docs : List (List Char × List Char)) : List (List Char) :=
  docs.flatMap (fun d => chunk_text d.2 1800)

/-- The matching `new_records` sequence: each chunk paired with its source
path, appended in exactly the same order as `all_chunks`. -/
def newRecordsOf (docs : List (List Char × List Char)) : List MetaRecord :=
  docs.flatMap (fun d => (chunk_text d.2 1800).map (fun c => ⟨d.1, c⟩))

/-- `ingest_directory` from `rag_core.py`.  The batch embedding call is the
fallible provider boundary (`none` models a raised provider error).  Returns
the store after the call together with the returned count or the propagated
error; as in the source, every storage mutation (index add, index write,
metadata append) happens only after the embedding batch succeeded. -/
def ingestDirectory (embed : List (List Char) → Option (List Vec))
    (docs : List (List Char × List Char)) (s : Store) :
    Store × Except RagError Nat :=
  let index := ensureIndex s DIMENSIONS
  let all_chunks := allChunksOf docs
  let new_records := newRecordsOf docs
  if all_chunks = [] then (s, .ok 0)
  else
    match embed all_chunks with
    | none => (s, .error .embeddingProvider)
    | some vecs =>
      match faissAdd index vecs with
      | .error e => (s, .error e)
      | .ok index2 =>
        ({ indexFile := some index2, metaFile := s.metaFile ++ new_records },
         .ok new_records.length)

/-- A sequence of `ingest_directory` calls run against the same store, each
with its own document batch; the count results are discarded and the final
store is returned. -/
def ingestMany (embed : List (List Char) → Option (List Vec))
    (batches : List (List (List Char × List Char))) (s : Store) : Store :=
  batches.foldl (fun st docs => (ingestDirectory embed docs st).1) s

/-! ## Retrieval pipeline -/

/-- `retrieve` from `rag_core.py`.  The query embedding call is the fallible
provider boundary.  Retrieval performs no store mutation (the source contains
no write), so only the hits or the propagated error are returned.  The hit
loop keeps exactly the search rows whose ordinal is in range for the current
metadata and reads `source`/`text` from the record at that ordinal. -/
def retrieve (embed : List (List Char) → Option (List Vec))
    (query : List Char) (k : Nat) (s : Store) : Except RagError (List Hit) :=
  match s.indexFile with
  | none => .error .indexNotFound
  | some index =>
    let metadata := s.metaFile
    if metadata = [] then .ok []
    else
      match embed [query] with
      | none => .error .embeddingProvider
      | some qvs =>
        (faissIndexSearch index (qvs.headD []) k).map (fun results =>
          results.filterMap (fun p =>
            if 0 ≤ p.1 ∧ p.1 < (metadata.length : Int) then
              metadata[p.1.toNat]?.map
                (fun mrec => ⟨p.2, mrec.source, mrec.text⟩)
            else none))

/-- The alignment invariant of the two stores, relative to the per-text
behaviour `f` of the embedding provider: the persisted (or fresh) index has
the configured dimension and its vector list is exactly the embedding of the
metadata texts, ordinal by ordinal. -/
def Aligned (f : List Char → Vec) (s : Store) : Prop :=
  (ensureIndex s DIMENSIONS).d = DIMENSIONS ∧
  (ensureIndex s DIMENSIONS).vecs = s.metaFile.map (fun r => f r.text)

/-! ## Chunker lemmas -/

theorem chunksOfF_nil (f m : Nat) : chunksOfF f [] m = [] := by
  cases f <;> simp [chunksOfF]

theorem chunksOfF_congr : ∀ (f₁ f₂ : Nat) (l : List Char) (m : Nat),
    l.length ≤ f₁ → l.length ≤ f₂ → chunksOfF f₁ l m = chunksOfF f₂ l m
  | 0, f₂, l, m, h₁, _ => by
    have : l = [] := List.length_eq_zero.mp (Nat.le_zero.mp h₁)
    subst this
    simp [chunksOfF_nil]
  | f₁ + 1, f₂, l, m, h₁, h₂ => by
    by_cases hl : l = []
    · subst hl; simp [chunksOfF_nil]
    · obtain ⟨g₂, rfl⟩ : ∃ g₂, f₂ = g₂ + 1 := by
        cases f₂ with
        | zero =>
          exact absurd (List.length_eq_zero.mp (Nat.le_zero.mp h₂)) hl
        | succ g => exact ⟨g, rfl⟩
      by_cases hm : m = 0
      · simp [chunksOfF, hl, hm]
      · have hdrop₁ : (l.drop m).length ≤ f₁ := by
          simp only [List.length_drop]
          omega
        have hdrop₂ : (l.drop m).length ≤ g₂ := by
          simp only [List.length_drop]
          omega
        simp only [chunksOfF, hl, hm, if_false]
        rw [chunksOfF_congr f₁ g₂ (l.drop m) m hdrop₁ hdrop₂]

/-- The defining recurrence of `chunksOf`. -/
theorem chunksOf_eq (l : List Char) (m : Nat) :
    chunksOf l m =
      if l = [] then []
      else if m = 0 then []
      else l.take m :: chunksOf (l.drop m) m := by
  by_cases hl : l = []
  · subst hl; simp [chunksOf, chunksOfF_nil]
  · by_cases hm : m = 0
    · obtain ⟨c, l', rfl⟩ : ∃ c l', l = c :: l' := by
        cases l with
        | nil => exact absurd rfl hl
        | cons c l' => exact ⟨c, l', rfl⟩
      simp [chunksOf, chunksOfF, hm]
    · have hlen : l.length ≠ 0 := by
        simpa using fun h => hl (List.length_eq_zero.mp h)
      obtain ⟨g, hg⟩ : ∃ g, l.length = g + 1 := by
        cases hn : l.length with
        | zero => exact absurd hn hlen
        | succ g => exact ⟨g, rfl⟩
      have : chunksOf l m = chunksOfF (g + 1) l m := by
        rw [chunksOf, hg]
      rw [this]
      simp only [chunksOfF, hl, hm, if_false]
      have hdrop : (l.drop m).length ≤ g := by
        simp only [List.length_drop]
        omega
      rw [chunksOf, chunksOfF_congr (l.drop m).length g (l.drop m) m le_rfl hdrop]

example : chunk_text "  ab  ".toList 1 = [['a'], ['b']] := by decide
example : chunk_text "a   b".toList 2 = [['a', ' '], ['b']] := by decide
example : chunk_text "a   b".toList 1 = [['a'], ['b']] := by decide
example : chunk_text "   ".toList 5 = [] := by decide

theorem chunksOfF_length_le :
    ∀ (f : Nat) (l : List Char) (m : Nat), ∀ c ∈ chunksOfF f l m, c.length ≤ m
  | 0, l, m => by simp [chunksOfF]
  | f + 1, l, m => by
    by_cases hl : l = []
    · simp [chunksOfF, hl]
    · by_cases hm : m = 0
      · simp [chunksOfF, hl, hm]
      · intro c hc
        simp only [chunksOfF, hl, hm, if_false, List.mem_cons] at hc
        rcases hc with rfl | hc
        · exact List.length_take_le m l
        · exact chunksOfF_length_le f (l.drop m) m c hc

theorem chunksOfF_flatten :
    ∀ (f : Nat) (l : List Char) (m : Nat), l.length ≤ f → 0 < m →
      (chunksOfF f l m).flatten = l
  | 0, l, m, hf, _ => by
    have : l = [] := List.length_eq_zero.mp (Nat.le_zero.mp hf)
    subst this
    simp [chunksOfF]
  | f + 1, l, m, hf, hm => by
    by_cases hl : l = []
    · subst hl; simp [chunksOfF]
    · have hm' : m ≠ 0 := Nat.pos_iff_ne_zero.mp hm
      simp only [chunksOfF, hl, hm', if_false, List.flatten_cons]
      have hdrop : (l.drop m).length ≤ f := by
        simp only [List.length_drop]
        have : l.length ≤ f + 1 := hf
        omega
      rw [chunksOfF_flatten f (l.drop m) m hdrop hm, List.take_append_drop]

theorem chunksOf_flatten (l : List Char) (m : Nat) (hm : 0 < m) :
    (chunksOf l m).flatten = l :=
  chunksOfF_flatten l.length l m le_rfl hm

theorem pyStrip_eq_nil_of_all_ws {c : List Char}
    (h : ∀ ch ∈ c, ch.isWhitespace = true) : pyStrip c = [] := by
  have h1 : c.dropWhile Char.isWhitespace = [] :=
    List.dropWhile_eq_nil_iff.mpr h
  simp [pyStrip, h1]

theorem exists_not_ws_of_pyStrip_ne_nil {c : List Char} (h : pyStrip c ≠ []) :
    ∃ ch ∈ c, ch.isWhitespace = false := by
  by_contra hcon
  push_neg at hcon
  exact h (pyStrip_eq_nil_of_all_ws fun ch hch => by
    have := hcon ch hch
    cases hb : ch.isWhitespace with
    | false => exact absurd hb this
    | true => rfl)

theorem flatten_sublist {l₁ l₂ : List (List Char)} (h : l₁.Sublist l₂) :
    l₁.flatten.Sublist l₂.flatten := by
  induction h with
  | slnil => exact List.Sublist.refl _
  | cons a h ih => exact ih.trans (List.sublist_append_right a _)
  | cons₂ a h ih => exact ih.append_left a

/-! ## Claim C5 -/

/-- Claim C5: `chunk_text text max_chars` first trims the input and returns `[]`
when the trimmed input is empty; otherwise it returns an order-preserving
selection of the consecutive non-overlapping `max_chars`-sized slices of the
trimmed input (whose concatenation is the whole trimmed input), where every
whitespace-only slice is dropped, so every returned unit has length at most
`max_chars` and contains a non-whitespace character. -/
theorem chunk_text_contract (text : List Char) (m : Nat) (hm : 0 < m) :
    (pyStrip text = [] → chunk_text text m = []) ∧
    (chunk_text text m).Sublist (chunksOf (pyStrip text) m) ∧
    (chunksOf (pyStrip text) m).flatten = pyStrip text ∧
    ∀ c ∈ chunk_text text m, c.length ≤ m ∧ ∃ ch ∈ c, ch.isWhitespace = false := by
  refine ⟨fun h => by simp [chunk_text, h], ?_, chunksOf_flatten _ m hm, ?_⟩
  · by_cases h : pyStrip text = []
    · simp [chunk_text, h]
    · simp only [chunk_text, h, if_false]
      exact List.filter_sublist _
  · intro c hc
    by_cases h : pyStrip text = []
    · simp [chunk_text, h] at hc
    · simp only [chunk_text, h, if_false, List.mem_filter] at hc
      refine ⟨chunksOfF_length_le _ _ _ c hc.1, ?_⟩
      exact exists_not_ws_of_pyStrip_ne_nil (by simpa using hc.2)

theorem chunk_text_contract_witness :
    0 < 2 ∧
      ((pyStrip "  abc ".toList = [] → chunk_text "  abc ".toList 2 = []) ∧
      (chunk_text "  abc ".toList 2).Sublist (chunksOf (pyStrip "  abc ".toList) 2) ∧
      (chunksOf (pyStrip "  abc ".toList) 2).flatten = pyStrip "  abc ".toList ∧
      ∀ c ∈ chunk_text "  abc ".toList 2,
        c.length ≤ 2 ∧ ∃ ch ∈ c, ch.isWhitespace = false) :=
  ⟨by decide, chunk_text_contract "  abc ".toList 2 (by decide)⟩

/-! ## Claim C6 -/

/-- Claim C6: the concatenation of `chunk_text text max_chars` is the trimmed
input with the dropped whitespace-only slices removed: it is an
order-preserving subsequence of the trimmed input, and when no slice of the
trimmed input is whitespace-only it equals the trimmed input exactly. -/
theorem chunk_text_completeness (text : List Char) (m : Nat) (hm : 0 < m) :
    ((chunk_text text m).flatten).Sublist (pyStrip text) ∧
    ((∀ c ∈ chunksOf (pyStrip text) m, pyStrip c ≠ []) →
      (chunk_text text m).flatten = pyStrip text) := by
  constructor
  · by_cases h : pyStrip text = []
    · simp [chunk_text, h]
    · have h1 : (chunk_text text m).Sublist (chunksOf (pyStrip text) m) := by
        simp only [chunk_text, h, if_false]
        exact List.filter_sublist _
      have h2 := flatten_sublist h1
      rwa [chunksOf_flatten _ m hm] at h2
  · intro hall
    by_cases h : pyStrip text = []
    · simp [chunk_text, h]
    · simp only [chunk_text, h, if_false]
      have : (chunksOf (pyStrip text) m).filter (fun c => pyStrip c ≠ []) =
          chunksOf (pyStrip text) m := by
        apply List.filter_eq_self.mpr
        intro c hc
        exact decide_eq_true (hall c hc)
      rw [this, chunksOf_flatten _ m hm]

theorem chunk_text_completeness_witness :
    0 < 1 ∧
      (((chunk_text " ab ".toList 1).flatten).Sublist (pyStrip " ab ".toList) ∧
      ((∀ c ∈ chunksOf (pyStrip " ab ".toList) 1, pyStrip c ≠ []) →
        (chunk_text " ab ".toList 1).flatten = pyStrip " ab ".toList)) :=
  ⟨by decide, chunk_text_completeness " ab ".toList 1 (by decide)⟩

theorem except_map_eq_error {α β : Type} (f : α → β) (x : Except RagError α)
    (e : RagError) (h : x.map f = .error e) : x = .error e := by
  cases x <;> simp_all [Except.map]

/-! ## Claim C2 -/

/-- Claim C2: if the batch embedding call raises inside `ingest_directory`
(on a non-empty chunk batch, i.e. the call is actually made), the whole call
aborts with that error and the store is unmodified; likewise a raised query
embedding aborts `retrieve` with the error (retrieval performs no store
mutation at all, as the source contains no write). -/
theorem embedding_failure_atomicity
    (embed : List (List Char) → Option (List Vec))
    (docs : List (List Char × List Char)) (s : Store)
    (hne : allChunksOf docs ≠ [])
    (hfail : embed (allChunksOf docs) = none)
    (embed₂ : List (List Char) → Option (List Vec))
    (query : List Char) (k : Nat) (s₂ : Store) (idx : FaissIndex)
    (hidx : s₂.indexFile = some idx) (hmeta : s₂.metaFile ≠ [])
    (hq : embed₂ [query] = none) :
    ingestDirectory embed docs s = (s, .error .embeddingProvider) ∧
    retrieve embed₂ query k s₂ = .error .embeddingProvider := by
  constructor
  · simp [ingestDirectory, hne, hfail]
  · simp [retrieve, hidx, hmeta, hq]

theorem embedding_failure_atomicity_witness :
    (allChunksOf [(['p'], ['x'])] ≠ [] ∧
      (fun _ : List (List Char) => (none : Option (List Vec)))
        (allChunksOf [(['p'], ['x'])]) = none ∧
      (Store.mk (some ⟨DIMENSIONS, []⟩) [⟨['p'], ['x']⟩]).indexFile =
        some ⟨DIMENSIONS, []⟩ ∧
      (Store.mk (some ⟨DIMENSIONS, []⟩) [⟨['p'], ['x']⟩]).metaFile ≠ [] ∧
      (fun _ : List (List Char) => (none : Option (List Vec))) [['q']] = none) ∧
    (ingestDirectory (fun _ => none) [(['p'], ['x'])] ⟨none, []⟩ =
        (⟨none, []⟩, .error .embeddingProvider) ∧
      retrieve (fun _ => none) ['q'] 5
        (Store.mk (some ⟨DIMENSIONS, []⟩) [⟨['p'], ['x']⟩]) =
        .error .embeddingProvider) :=
  ⟨⟨by decide, rfl, rfl, by decide, rfl⟩,
    embedding_failure_atomicity (fun _ => none) [(['p'], ['x'])] ⟨none, []⟩
      (by decide) rfl (fun _ => none) ['q'] 5 _ _ rfl (by decide) rfl⟩

/-! ## Claim C8 -/

/-- Claim C8: `retrieve` fails with the index-not-found error exactly when no
persisted index file exists; whenever the index file exists, the call never
raises this error, whatever the metadata store or the embedding provider
do. -/
theorem retrieve_index_not_found_iff
    (embed : List (List Char) → Option (List Vec))
    (query : List Char) (k : Nat) (s : Store) :
    retrieve embed query k s = .error .indexNotFound ↔ s.indexFile = none := by
  constructor
  · intro h
    cases hidx : s.indexFile with
    | none => rfl
    | some idx =>
      exfalso
      simp only [retrieve, hidx] at h
      by_cases hm : s.metaFile = []
      · simp [hm] at h
      · simp only [hm, if_false] at h
        cases hq : embed [query] with
        | none => simp [hq] at h
        | some qvs =>
          simp only [hq] at h
          have h3 := except_map_eq_error _ _ _ h
          unfold faissIndexSearch at h3
          split at h3 <;> simp_all
  · intro h
    simp [retrieve, h]

/-! ## Claim C9 -/

/-- Claim C9: `retrieve` on a store whose metadata has zero records (but a
persisted index, so the index-existence check passes) returns `[]` — not an
error, and without consulting the embedding provider, which is formalised by
quantifying over an arbitrary provider; `ingest_directory` over documents
yielding no units returns 0 and leaves the store completely untouched. -/
theorem empty_state_behavior
    (embed : List (List Char) → Option (List Vec))
    (query : List Char) (k : Nat) (s : Store) (idx : FaissIndex)
    (hidx : s.indexFile = some idx) (hmeta : s.metaFile = [])
    (embed₂ : List (List Char) → Option (List Vec))
    (docs : List (List Char × List Char)) (s₂ : Store)
    (hchunks : allChunksOf docs = []) :
    retrieve embed query k s = .ok [] ∧
    ingestDirectory embed₂ docs s₂ = (s₂, .ok 0) := by
  constructor
  · simp [retrieve, hidx, hmeta]
  · simp [ingestDirectory, hchunks]

theorem empty_state_behavior_witness :
    ((Store.mk (some ⟨DIMENSIONS, []⟩) []).indexFile = some ⟨DIMENSIONS, []⟩ ∧
      (Store.mk (some ⟨DIMENSIONS, []⟩) []).metaFile = [] ∧
      allChunksOf [(['p'], [' ', ' '])] = []) ∧
    (retrieve (fun _ => none) ['q'] 5 (Store.mk (some ⟨DIMENSIONS, []⟩) []) =
        .ok [] ∧
      ingestDirectory (fun _ => none) [(['p'], [' ', ' '])] ⟨none, [⟨['a'], ['b']⟩]⟩ =
        (⟨none, [⟨['a'], ['b']⟩]⟩, .ok 0)) :=
  ⟨⟨rfl, rfl, by decide⟩,
    empty_state_behavior (fun _ => none) ['q'] 5 _ _ rfl rfl
      (fun _ => none) [(['p'], [' ', ' '])] ⟨none, [⟨['a'], ['b']⟩]⟩ (by decide)⟩

/-! ## Claim C3 -/

/-- A persisted index whose stored dimension (3) disagrees with the
configured `DIMENSIONS` (1536). -/
def mismatchedIndex : FaissIndex := ⟨3, [[1, 0, 0]]⟩

/-- A store holding `mismatchedIndex` as its persisted index file, with one
metadata record. -/
def mismatchedStore : Store := ⟨some mismatchedIndex, [⟨['s'], ['t']⟩]⟩

/-- Counterexample to claim C3 as stated: opening a persisted index whose
vector dimension disagrees with the configured embedding dimension does NOT
fail — `_ensure_index` performs no dimension check and returns the mismatched
index unchanged, proceeding with it (and `retrieve` likewise loads it
directly).  The claimed fatal configuration error on open does not exist. -/
theorem ensure_index_no_dimension_check :
    mismatchedIndex.d ≠ DIMENSIONS ∧
    ensureIndex mismatchedStore DIMENSIONS = mismatchedIndex :=
  ⟨by decide, rfl⟩

/-- Claim C3 (amended): opening a persisted index with a mismatched dimension
succeeds (no check is performed on load), but the mismatched index cannot be
used: the `Index.add` of the embedding batch inside `ingest_directory` and
the `Index.search` of the embedded query inside `retrieve` both fail the
dimension assertion of the index library, the call aborts with that error,
and the stores are left unmodified — vectors are never truncated or padded
to fit. -/
theorem mismatched_dimension_fails_at_use
    (s : Store) (idx : FaissIndex) (hidx : s.indexFile = some idx)
    (hd : idx.d ≠ DIMENSIONS)
    (embed : List (List Char) → Option (List Vec))
    (docs : List (List Char × List Char)) (vecs : List Vec)
    (hne : allChunksOf docs ≠ [])
    (hembed : embed (allChunksOf docs) = some vecs)
    (hlen : ∀ v ∈ vecs, v.length = DIMENSIONS) (hvne : vecs ≠ [])
    (embed₂ : List (List Char) → Option (List Vec))
    (query : List Char) (qv : Vec) (k : Nat)
    (hmeta : s.metaFile ≠ [])
    (hq : embed₂ [query] = some [qv]) (hqv : qv.length = DIMENSIONS) :
    ensureIndex s DIMENSIONS = idx ∧
    ingestDirectory embed docs s = (s, .error .faissDimension) ∧
    retrieve embed₂ query k s = .error .faissDimension := by
  have hens : ensureIndex s DIMENSIONS = idx := by simp [ensureIndex, hidx]
  refine ⟨hens, ?_, ?_⟩
  · have hall : vecs.all (fun v => decide (v.length = idx.d)) = false := by
      cases vecs with
      | nil => exact absurd rfl hvne
      | cons v vs =>
        have hv : v.length = DIMENSIONS := hlen v (List.mem_cons_self v vs)
        simp [List.all_cons, hv, Ne.symm hd]
    simp [ingestDirectory, hne, hembed, hens, faissAdd, hall]
  · have hdq : ¬ qv.length = idx.d := by
      rw [hqv]; exact Ne.symm hd
    simp [retrieve, hidx, hmeta, hq, faissIndexSearch, hdq, Except.map]

theorem mismatched_dimension_fails_at_use_witness :
    (mismatchedStore.indexFile = some mismatchedIndex ∧
      mismatchedIndex.d ≠ DIMENSIONS ∧
      allChunksOf [(['p'], ['x'])] ≠ [] ∧
      (fun _ : List (List Char) => some [List.replicate DIMENSIONS (0 : ℚ)])
        (allChunksOf [(['p'], ['x'])]) = some [List.replicate DIMENSIONS (0 : ℚ)] ∧
      (∀ v ∈ [List.replicate DIMENSIONS (0 : ℚ)], v.length = DIMENSIONS) ∧
      [List.replicate DIMENSIONS (0 : ℚ)] ≠ [] ∧
      mismatchedStore.metaFile ≠ [] ∧
      (List.replicate DIMENSIONS (0 : ℚ)).length = DIMENSIONS) ∧
    (ensureIndex mismatchedStore DIMENSIONS = mismatchedIndex ∧
      ingestDirectory (fun _ => some [List.replicate DIMENSIONS (0 : ℚ)])
          [(['p'], ['x'])] mismatchedStore =
        (mismatchedStore, .error .faissDimension) ∧
      retrieve (fun _ => some [List.replicate DIMENSIONS (0 : ℚ)])
          ['q'] 5 mismatchedStore = .error .faissDimension) :=
  ⟨⟨rfl, by decide, by decide, rfl, by simp, by simp, by decide, by simp⟩,
    mismatched_dimension_fails_at_use mismatchedStore mismatchedIndex rfl
      (by decide) _ [(['p'], ['x'])] [List.replicate DIMENSIONS (0 : ℚ)]
      (by decide) rfl (by simp) (by simp) _ ['q']
      (List.replicate DIMENSIONS (0 : ℚ)) 5 (by decide) rfl (by simp)⟩

/-! ## Claim C4 -/

/-- A concrete stand-in for `json.loads` on metadata lines, for evaluation:
an empty line (as a crash-truncated trailing write would leave) fails to
parse; any other line parses to a record with a fixed source. -/
def demoJsonLoads (l : List Char) : Option MetaRecord :=
  if l = [] then none else some ⟨['f'], l⟩

/-- Counterexample to claim C4 as stated: a malformed trailing record is NOT
skipped with a warning — `_read_metadata` parses every line and a parse
failure anywhere, including the trailing line, aborts the whole read.  With a
well-formed first line and a malformed trailing line the read is an error
rather than the list holding the prior complete record. -/
theorem read_metadata_trailing_corruption_fatal :
    readMetadata demoJsonLoads [['g'], []] = none ∧
    readMetadata demoJsonLoads [['g'], []] ≠ some [⟨['f'], ['g']⟩] :=
  ⟨rfl, by decide⟩

/-- Claim C4 (amended): `_read_metadata` has no crash-truncation tolerance:
a malformed (non-parsable) record in ANY position — the trailing one
included — is a fatal read error for the whole read and no records are
returned; when every line parses, all records are returned with their
ordinals unchanged. -/
theorem read_metadata_all_or_nothing
    (parse : List Char → Option MetaRecord) (lines : List (List Char)) :
    ((∃ l ∈ lines, parse l = none) → readMetadata parse lines = none) ∧
    (∀ rs, readMetadata parse lines = some rs →
      rs.length = lines.length ∧
      ∀ i, i < lines.length →
        ∃ l r, lines[i]? = some l ∧ rs[i]? = some r ∧ parse l = some r) := by
  induction lines with
  | nil =>
    constructor
    · rintro ⟨l, hl, _⟩
      cases hl
    · intro rs h
      simp only [readMetadata] at h
      obtain rfl : rs = [] := by
        cases h
        rfl
      exact ⟨rfl, fun i hi => absurd hi (by simp)⟩
  | cons a ls ih =>
    constructor
    · rintro ⟨l, hl, hnone⟩
      rcases List.mem_cons.mp hl with rfl | hmem
      · simp [readMetadata, hnone]
      · have hrec : readMetadata parse ls = none := ih.1 ⟨l, hmem, hnone⟩
        cases hpa : parse a with
        | none => simp [readMetadata, hpa]
        | some r => simp [readMetadata, hpa, hrec]
    · intro rs h
      cases hpa : parse a with
      | none => simp [readMetadata, hpa] at h
      | some r =>
        cases hrec : readMetadata parse ls with
        | none => simp [readMetadata, hpa, hrec] at h
        | some rs' =>
          have hrs : rs = r :: rs' := by
            simp [readMetadata, hpa, hrec] at h
            exact h.symm
          subst hrs
          obtain ⟨hlen, hidxs⟩ := ih.2 rs' hrec
          refine ⟨by simp [hlen], ?_⟩
          intro i hi
          cases i with
          | zero => exact ⟨a, r, by simp, by simp, hpa⟩
          | succ j =>
            have hj : j < ls.length := by
              simpa using hi
            obtain ⟨l, r', h1, h2, h3⟩ := hidxs j hj
            exact ⟨l, r', by simpa using h1, by simpa using h2, h3⟩

theorem read_metadata_all_or_nothing_witness :
    readMetadata demoJsonLoads [['a'], []] = none ∧
    (([⟨['f'], ['a']⟩] : List MetaRecord).length = [['a']].length ∧
      ∀ i, i < [['a']].length →
        ∃ l r, [['a']][i]? = some l ∧
          ([⟨['f'], ['a']⟩] : List MetaRecord)[i]? = some r ∧
          demoJsonLoads l = some r) :=
  ⟨(read_metadata_all_or_nothing demoJsonLoads [['a'], []]).1
      ⟨[], by decide, rfl⟩,
    (read_metadata_all_or_nothing demoJsonLoads [['a']]).2
      [⟨['f'], ['a']⟩] rfl⟩

/-! ## Claim C1 -/

theorem newRecords_texts (docs : List (List Char × List Char)) :
    (newRecordsOf docs).map (fun r => r.text) = allChunksOf docs := by
  induction docs with
  | nil => rfl
  | cons d ds ih =>
    simp only [newRecordsOf, allChunksOf, List.flatMap_cons, List.map_append,
      List.map_map] at ih ⊢
    rw [ih]
    have hF : ((fun r => MetaRecord.text r) ∘
        fun c => ({ source := d.1, text := c } : MetaRecord)) = id := rfl
    rw [hF, List.map_id]

theorem aligned_ingest (f : List Char → Vec)
    (embed : List (List Char) → Option (List Vec))
    (hembed : ∀ ts vs, embed ts = some vs → vs = ts.map f)
    (docs : List (List Char × List Char)) (s : Store) (hs : Aligned f s) :
    Aligned f (ingestDirectory embed docs s).1 := by
  by_cases hch : allChunksOf docs = []
  · have heq : ingestDirectory embed docs s = (s, .ok 0) := by
      simp [ingestDirectory, hch]
    rw [heq]
    exact hs
  · cases hemb : embed (allChunksOf docs) with
    | none =>
      have heq : ingestDirectory embed docs s = (s, .error .embeddingProvider) := by
        simp [ingestDirectory, hch, hemb]
      rw [heq]
      exact hs
    | some vecs =>
      cases hadd : faissAdd (ensureIndex s DIMENSIONS) vecs with
      | error e =>
        have heq : ingestDirectory embed docs s = (s, .error e) := by
          simp [ingestDirectory, hch, hemb, hadd]
        rw [heq]
        exact hs
      | ok index2 =>
        have heq : ingestDirectory embed docs s =
            ({ indexFile := some index2,
               metaFile := s.metaFile ++ newRecordsOf docs },
              .ok (newRecordsOf docs).length) := by
          simp [ingestDirectory, hch, hemb, hadd]
        rw [heq]
        have hidx2 : index2 =
            ⟨(ensureIndex s DIMENSIONS).d,
              (ensureIndex s DIMENSIONS).vecs ++ vecs⟩ := by
          unfold faissAdd at hadd
          split at hadd
          · exact (Except.ok.inj hadd).symm
          · exact absurd hadd (by simp)
        obtain ⟨hd, hvecs⟩ := hs
        subst hidx2
        constructor
        · exact hd
        · show (ensureIndex s DIMENSIONS).vecs ++ vecs =
            (s.metaFile ++ newRecordsOf docs).map (fun r => f r.text)
          rw [List.map_append, hvecs, hembed _ _ hemb,
            ← newRecords_texts docs, List.map_map]
          rfl

theorem aligned_ingestMany (f : List Char → Vec)
    (embed : List (List Char) → Option (List Vec))
    (hembed : ∀ ts vs, embed ts = some vs → vs = ts.map f)
    (batches : List (List (List Char × List Char))) (s : Store)
    (hs : Aligned f s) : Aligned f (ingestMany embed batches s) := by
  induction batches generalizing s with
  | nil => exact hs
  | cons b bs ih =>
    exact ih _ (aligned_ingest f embed hembed b s hs)

/-- Claim C1: starting from an empty or aligned store, after any sequence of
completed `ingest_directory` calls (against an embedding provider whose batch
output is one vector per input text, order preserving, with per-text
behaviour `f`), the metadata store and the persisted vector index hold the
same number of entries, and the vector at every ordinal `i` is exactly the
embedding of the chunk text held by the metadata record at ordinal `i` (each
record having been appended paired with its chunk's source path by
construction of `newRecordsOf`). -/
theorem ingest_alignment (f : List Char → Vec)
    (embed : List (List Char) → Option (List Vec))
    (hembed : ∀ ts vs, embed ts = some vs → vs = ts.map f)
    (batches : List (List (List Char × List Char))) (s : Store)
    (hs : Aligned f s) :
    (ensureIndex (ingestMany embed batches s) DIMENSIONS).vecs.length =
      (ingestMany embed batches s).metaFile.length ∧
    ∀ (i : Nat) (r : MetaRecord),
      (ingestMany embed batches s).metaFile[i]? = some r →
      (ensureIndex (ingestMany embed batches s) DIMENSIONS).vecs[i]? =
        some (f r.text) := by
  obtain ⟨_, hvecs⟩ := aligned_ingestMany f embed hembed batches s hs
  constructor
  · rw [hvecs, List.length_map]
  · intro i r hr
    rw [hvecs, List.getElem?_map, hr]
    rfl

/-- A concrete embedding-provider behaviour used for evaluation: every text
embeds to the all-zero vector of the configured dimension. -/
def constEmbedFn : List Char → Vec := fun _ => List.replicate DIMENSIONS 0

/-- The batch provider induced by `constEmbedFn`: one vector per input text,
order preserving, never failing. -/
def constEmbed : List (List Char) → Option (List Vec) :=
  fun ts => some (ts.map constEmbedFn)

theorem ingest_alignment_witness :
    ((∀ ts vs, constEmbed ts = some vs → vs = ts.map constEmbedFn) ∧
      Aligned constEmbedFn ⟨none, []⟩) ∧
    ((ensureIndex (ingestMany constEmbed [[(['p'], ['x'])]] ⟨none, []⟩)
          DIMENSIONS).vecs.length =
        (ingestMany constEmbed [[(['p'], ['x'])]] ⟨none, []⟩).metaFile.length ∧
      ∀ (i : Nat) (r : MetaRecord),
        (ingestMany constEmbed [[(['p'], ['x'])]] ⟨none, []⟩).metaFile[i]? =
            some r →
        (ensureIndex (ingestMany constEmbed [[(['p'], ['x'])]] ⟨none, []⟩)
            DIMENSIONS).vecs[i]? = some (constEmbedFn r.text)) :=
  ⟨⟨fun _ _ h => (Option.some.inj h).symm, ⟨rfl, rfl⟩⟩,
    ingest_alignment constEmbedFn constEmbed
      (fun _ _ h => (Option.some.inj h).symm)
      [[(['p'], ['x'])]] ⟨none, []⟩ ⟨rfl, rfl⟩⟩

/-! ## Inner-product lemmas -/

theorem dot_nil_left (b : Vec) : dot [] b = 0 := rfl

theorem dot_cons (x y : ℚ) (xs ys : Vec) :
    dot (x :: xs) (y :: ys) = x * y + dot xs ys := by
  simp [dot, List.zipWith_cons_cons]

theorem dot_self_nonneg : ∀ a : Vec, 0 ≤ dot a a
  | [] => le_refl 0
  | x :: xs => by
    rw [dot_cons]
    have h1 : 0 ≤ x * x := mul_self_nonneg x
    have h2 : 0 ≤ dot xs xs := dot_self_nonneg xs
    linarith

/-- Cauchy-Schwarz for the list inner product (no length hypothesis needed:
`zipWith` truncates to the common prefix and the extra square terms only help
the right side). -/
theorem dot_sq_le : ∀ a b : Vec, (dot a b) ^ 2 ≤ dot a a * dot b b
  | [], b => by
    simp [dot_nil_left]
  | x :: xs, [] => by
    have h1 : dot (x :: xs) [] = 0 := by simp [dot]
    have h2 : 0 ≤ dot (x :: xs) (x :: xs) := dot_self_nonneg _
    simp [h1, dot]
  | x :: xs, y :: ys => by
    have ihs := dot_sq_le xs ys
    have hQ : 0 ≤ dot xs xs := dot_self_nonneg xs
    have hV : 0 ≤ dot ys ys := dot_self_nonneg ys
    rw [dot_cons, dot_cons, dot_cons]
    set S := dot xs ys with hS
    set Q := dot xs xs with hQd
    set V := dot ys ys with hVd
    have h1 : (2 * (x * y) * S) ^ 2 ≤ (x ^ 2 * V + Q * y ^ 2) ^ 2 := by
      nlinarith [sq_nonneg (x ^ 2 * V - Q * y ^ 2), sq_nonneg (x * y),
        mul_le_mul_of_nonneg_left ihs
          (by positivity : (0 : ℚ) ≤ 4 * (x * y) ^ 2)]
    have h2 : 2 * (x * y) * S ≤ x ^ 2 * V + Q * y ^ 2 := by
      have hnn : 0 ≤ x ^ 2 * V + Q * y ^ 2 := by positivity
      nlinarith [h1, hnn]
    nlinarith [ihs, h2]

theorem dot_le_one (a b : Vec) (ha : dot a a = 1) (hb : dot b b = 1) :
    dot a b ≤ 1 := by
  have h := dot_sq_le a b
  rw [ha, hb] at h
  nlinarith [h]

theorem dot_sub_self (a b : Vec) (hlen : a.length = b.length) :
    dot (List.zipWith (fun x y => x - y) a b) (List.zipWith (fun x y => x - y) a b) =
      dot a a - 2 * dot a b + dot b b := by
  induction a generalizing b with
  | nil =>
    obtain rfl : b = [] := List.length_eq_zero.mp hlen.symm
    simp [dot]
  | cons x xs ih =>
    cases b with
    | nil => exact absurd hlen (by simp)
    | cons y ys =>
      have hlen' : xs.length = ys.length := by simpa using hlen
      simp only [List.zipWith_cons_cons, dot_cons]
      rw [ih ys hlen']
      ring

theorem eq_of_sub_dot_zero : ∀ (a b : Vec), a.length = b.length →
    dot (List.zipWith (fun x y => x - y) a b)
      (List.zipWith (fun x y => x - y) a b) = 0 → a = b
  | [], b, hlen, _ => (List.length_eq_zero.mp hlen.symm).symm
  | x :: xs, [], hlen, _ => absurd hlen (by simp)
  | x :: xs, y :: ys, hlen, h => by
    have hlen' : xs.length = ys.length := by simpa using hlen
    simp only [List.zipWith_cons_cons, dot_cons] at h
    have h1 : 0 ≤ (x - y) * (x - y) := mul_self_nonneg _
    have h2 : 0 ≤ dot (List.zipWith (fun x y => x - y) xs ys)
        (List.zipWith (fun x y => x - y) xs ys) := dot_self_nonneg _
    have hxy : (x - y) * (x - y) = 0 := by linarith
    have hx : x = y := by
      have := mul_self_eq_zero.mp hxy
      linarith [this]
    have hrest : xs = ys := eq_of_sub_dot_zero xs ys hlen' (by linarith)
    rw [hx, hrest]

/-- Two unit vectors of the same length whose inner product is 1 are equal
(the Cauchy-Schwarz equality case). -/
theorem eq_of_dot_eq_one (a b : Vec) (hlen : a.length = b.length)
    (ha : dot a a = 1) (hb : dot b b = 1) (hab : dot a b = 1) : a = b := by
  apply eq_of_sub_dot_zero a b hlen
  rw [dot_sub_self a b hlen, ha, hb, hab]
  ring

/-! ## Search-ranking lemmas -/

/-- The strict version of the ranking order: strictly higher score, or equal
score and strictly lower ordinal. -/
def searchRelStrict (a b : Int × ℚ) : Prop :=
  b.2 < a.2 ∨ (a.2 = b.2 ∧ a.1 < b.1)

theorem scoreList_length (vecs : List Vec) (q : Vec) :
    (scoreList vecs q).length = vecs.length := by
  simp [scoreList, List.enum_length]

theorem mem_scoreList {vecs : List Vec} {q : Vec} {p : Int × ℚ} :
    p ∈ scoreList vecs q ↔
      ∃ (i : Nat) (hi : i < vecs.length), p = ((i : Int), dot q vecs[i]) := by
  simp only [scoreList, List.mem_map]
  constructor
  · rintro ⟨⟨i, v⟩, hmem, rfl⟩
    obtain ⟨hi, hv⟩ := List.getElem?_eq_some.mp (List.mem_enum_iff_getElem?.mp hmem)
    exact ⟨i, hi, by rw [hv]⟩
  · rintro ⟨i, hi, rfl⟩
    refine ⟨(i, vecs[i]), ?_, rfl⟩
    exact List.mem_enum_iff_getElem?.mpr (List.getElem?_eq_getElem hi)

theorem scoreList_fst_nodup (vecs : List Vec) (q : Vec) :
    ((scoreList vecs q).map Prod.fst).Nodup := by
  have h1 : (scoreList vecs q).map Prod.fst =
      (vecs.enum.map Prod.fst).map (fun n : Nat => (n : Int)) := by
    unfold scoreList
    rw [List.map_map, List.map_map]
    rfl
  rw [h1]
  exact (List.nodup_enum_map_fst vecs).map (fun a b h => Nat.cast_injective h)

theorem faissRanked_perm (vecs : List Vec) (q : Vec) :
    (faissRanked vecs q).Perm (scoreList vecs q) :=
  List.perm_insertionSort _ _

theorem faissRanked_sorted (vecs : List Vec) (q : Vec) :
    List.Pairwise searchRel (faissRanked vecs q) :=
  List.sorted_insertionSort _ _

theorem faissRanked_length (vecs : List Vec) (q : Vec) :
    (faissRanked vecs q).length = vecs.length :=
  (faissRanked_perm vecs q).length_eq.trans (scoreList_length vecs q)

theorem faissRanked_fst_nodup (vecs : List Vec) (q : Vec) :
    ((faissRanked vecs q).map Prod.fst).Nodup :=
  (((faissRanked_perm vecs q).map Prod.fst).nodup_iff).mpr
    (scoreList_fst_nodup vecs q)

theorem faissRanked_pairwise_strict (vecs : List Vec) (q : Vec) :
    List.Pairwise searchRelStrict (faissRanked vecs q) := by
  have h2 : List.Pairwise (fun a b : Int × ℚ => a.1 ≠ b.1) (faissRanked vecs q) :=
    List.pairwise_map.mp (faissRanked_fst_nodup vecs q)
  refine ((faissRanked_sorted vecs q).and h2).imp ?_
  rintro a b ⟨hr | ⟨heq, hle⟩, hne⟩
  · exact Or.inl hr
  · exact Or.inr ⟨heq, lt_of_le_of_ne hle hne⟩

theorem faissSearchCore_eq (vecs : List Vec) (q : Vec) (k : Nat) :
    faissSearchCore vecs q k =
      (faissRanked vecs q).take k ++
        List.replicate (k - min k vecs.length) ((-1 : Int), (0 : ℚ)) := by
  show (faissRanked vecs q).take k ++
      List.replicate (k - ((faissRanked vecs q).take k).length)
        ((-1 : Int), (0 : ℚ)) =
    (faissRanked vecs q).take k ++
      List.replicate (k - min k vecs.length) ((-1 : Int), (0 : ℚ))
  rw [List.length_take, faissRanked_length]

theorem mem_take_faissRanked {vecs : List Vec} {q : Vec} {k : Nat}
    {p : Int × ℚ} (hp : p ∈ (faissRanked vecs q).take k) :
    ∃ (i : Nat) (hi : i < vecs.length), p = ((i : Int), dot q vecs[i]) :=
  mem_scoreList.mp ((faissRanked_perm vecs q).mem_iff.mp (List.mem_of_mem_take hp))

/-! ## Claim C7 -/

/-- Claim C7: on a non-empty index of unit-normalized stored vectors and a
positive `k`, the search used by `retrieve` returns the ranked rows followed
only by `-1` padding; the ranked rows number `min k n ≤ k`, are in strictly
descending score order with ties broken by lower ordinal, and each carries
the inner product of the query with the stored vector at its ordinal; a query
equal to a stored vector yields the lowest ordinal holding that vector first,
with score exactly 1 (the float `≈ 1.0` of the spec is exact here because
arithmetic is modelled over `ℚ`). -/
theorem search_ranking (d : Nat) (vecs : List Vec) (q : Vec) (k : Nat)
    (hk : 0 < k) (hne : vecs ≠ [])
    (hd : ∀ v ∈ vecs, v.length = d) (hq : q.length = d)
    (hunit : ∀ v ∈ vecs, dot v v = 1) (hqmem : q ∈ vecs) :
    faissSearchCore vecs q k =
        (faissRanked vecs q).take k ++
          List.replicate (k - min k vecs.length) ((-1 : Int), (0 : ℚ)) ∧
    ((faissRanked vecs q).take k).length = min k vecs.length ∧
    List.Pairwise searchRelStrict ((faissRanked vecs q).take k) ∧
    (∀ p ∈ (faissRanked vecs q).take k,
      ∃ (i : Nat) (hi : i < vecs.length), p = ((i : Int), dot q vecs[i])) ∧
    ∃ (i : Nat) (hi : i < vecs.length),
      vecs[i] = q ∧ (∀ j (hj : j < vecs.length), j < i → vecs[j] ≠ q) ∧
      (faissSearchCore vecs q k).head? = some ((i : Int), 1) := by
  have hq1 : dot q q = 1 := hunit q hqmem
  refine ⟨faissSearchCore_eq vecs q k,
    by rw [List.length_take, faissRanked_length],
    List.Pairwise.sublist (List.take_sublist k _) (faissRanked_pairwise_strict vecs q),
    fun p hp => mem_take_faissRanked hp, ?_⟩
  obtain ⟨j, hj, hjq⟩ := List.mem_iff_getElem.mp hqmem
  have hrne : faissRanked vecs q ≠ [] := by
    intro h0
    have hlen := faissRanked_length vecs q
    rw [h0] at hlen
    exact hne (List.length_eq_zero.mp hlen.symm)
  obtain ⟨x, rest, hxr⟩ := List.exists_cons_of_ne_nil hrne
  have hsort := faissRanked_sorted vecs q
  rw [hxr] at hsort
  have hrel : ∀ b ∈ rest, searchRel x b := List.rel_of_sorted_cons hsort
  have hxmem : x ∈ scoreList vecs q :=
    (faissRanked_perm vecs q).mem_iff.mp (hxr ▸ List.mem_cons_self x rest)
  obtain ⟨ix, hix, hxeq⟩ := mem_scoreList.mp hxmem
  have hjranked : ((j : Int), (1 : ℚ)) ∈ faissRanked vecs q :=
    (faissRanked_perm vecs q).mem_iff.mpr
      (mem_scoreList.mpr ⟨j, hj, by rw [hjq, hq1]⟩)
  have hx2le : x.2 ≤ 1 := by
    rw [hxeq]
    exact dot_le_one q vecs[ix] hq1 (hunit _ (List.getElem_mem hix))
  have hx2 : x.2 = 1 := by
    rw [hxr] at hjranked
    rcases List.mem_cons.mp hjranked with hxe | hmem
    · rw [← hxe]
    · rcases hrel _ hmem with hlt | ⟨heq, _⟩
      · exact absurd hlt (not_lt.mpr hx2le)
      · exact heq
  have hdot : dot q vecs[ix] = 1 := by
    rw [hxeq] at hx2
    exact hx2
  have hxv : vecs[ix] = q := by
    refine (eq_of_dot_eq_one q vecs[ix] ?_ hq1
      (hunit _ (List.getElem_mem hix)) hdot).symm
    rw [hq, hd _ (List.getElem_mem hix)]
  have hmin : ∀ j' (hj' : j' < vecs.length), j' < ix → vecs[j'] ≠ q := by
    intro j' hj' hlt hq'
    have hentry : ((j' : Int), (1 : ℚ)) ∈ faissRanked vecs q :=
      (faissRanked_perm vecs q).mem_iff.mpr
        (mem_scoreList.mpr ⟨j', hj', by rw [hq', hq1]⟩)
    rw [hxr] at hentry
    rcases List.mem_cons.mp hentry with hxe | hmem
    · have h1 : ((j' : Int), (1 : ℚ)).1 = x.1 := by rw [hxe]
      rw [hxeq] at h1
      have h2 : (j' : Int) = (ix : Int) := h1
      have : j' = ix := by exact_mod_cast h2
      omega
    · rcases hrel _ hmem with hlt2 | ⟨_, hle2⟩
      · rw [hx2] at hlt2
        exact absurd hlt2 (lt_irrefl 1)
      · rw [hxeq] at hle2
        have h3 : (ix : Int) ≤ (j' : Int) := hle2
        have : ix ≤ j' := by exact_mod_cast h3
        omega
  have hhead : (faissSearchCore vecs q k).head? = some ((ix : Int), 1) := by
    obtain ⟨k', rfl⟩ : ∃ k', k = k' + 1 := ⟨k - 1, by omega⟩
    rw [faissSearchCore_eq, hxr, List.take_succ_cons, List.cons_append,
      List.head?_cons, hxeq, hdot]
  exact ⟨ix, hix, hxv, hmin, hhead⟩

/-- A small index of unit vectors used for evaluation. -/
def demoVecs : List Vec := [[3/5, 4/5], [(1 : ℚ), 0]]

/-- A query vector equal to the stored vector at ordinal 1. -/
def demoQ : Vec := [(1 : ℚ), 0]

theorem demoVecs_unit : ∀ v ∈ demoVecs, dot v v = 1 := by
  intro v hv
  simp only [demoVecs, List.mem_cons, List.not_mem_nil, or_false] at hv
  rcases hv with rfl | rfl
  · norm_num [dot, List.zipWith_cons_cons, List.sum_cons]
  · norm_num [dot, List.zipWith_cons_cons, List.sum_cons]

theorem demoQ_mem : demoQ ∈ demoVecs := by
  simp [demoVecs, demoQ]

theorem demoVecs_lengths : ∀ v ∈ demoVecs, v.length = 2 := by
  intro v hv
  simp only [demoVecs, List.mem_cons, List.not_mem_nil, or_false] at hv
  rcases hv with rfl | rfl <;> rfl

theorem search_ranking_witness :
    ((0 : Nat) < 2 ∧ demoVecs ≠ [] ∧ (∀ v ∈ demoVecs, v.length = 2) ∧
      demoQ.length = 2 ∧ (∀ v ∈ demoVecs, dot v v = 1) ∧ demoQ ∈ demoVecs) ∧
    (faissSearchCore demoVecs demoQ 2 =
        (faissRanked demoVecs demoQ).take 2 ++
          List.replicate (2 - min 2 demoVecs.length) ((-1 : Int), (0 : ℚ)) ∧
      ((faissRanked demoVecs demoQ).take 2).length = min 2 demoVecs.length ∧
      List.Pairwise searchRelStrict ((faissRanked demoVecs demoQ).take 2) ∧
      (∀ p ∈ (faissRanked demoVecs demoQ).take 2,
        ∃ (i : Nat) (hi : i < demoVecs.length),
          p = ((i : Int), dot demoQ demoVecs[i])) ∧
      ∃ (i : Nat) (hi : i < demoVecs.length),
        demoVecs[i] = demoQ ∧
        (∀ j (hj : j < demoVecs.length), j < i → demoVecs[j] ≠ demoQ) ∧
        (faissSearchCore demoVecs demoQ 2).head? = some ((i : Int), 1)) :=
  ⟨⟨by decide, by simp [demoVecs], demoVecs_lengths, rfl, demoVecs_unit,
      demoQ_mem⟩,
    search_ranking 2 demoVecs demoQ 2 (by decide) (by simp [demoVecs])
      demoVecs_lengths rfl demoVecs_unit demoQ_mem⟩

/-! ## Claim C10 -/

theorem faissSearchCore_length (vecs : List Vec) (q : Vec) (k : Nat) :
    (faissSearchCore vecs q k).length = k := by
  rw [faissSearchCore_eq, List.length_append, List.length_take,
    faissRanked_length, List.length_replicate]
  omega

theorem filterMap_hits_length (meta : List MetaRecord) :
    ∀ rs : List (Int × ℚ),
      (rs.filterMap (fun p =>
        if 0 ≤ p.1 ∧ p.1 < (meta.length : Int) then
          meta[p.1.toNat]?.map (fun mrec => (⟨p.2, mrec.source, mrec.text⟩ : Hit))
        else none)).length =
      (rs.filter (fun p =>
        decide (0 ≤ p.1 ∧ p.1 < (meta.length : Int)))).length
  | [] => rfl
  | p :: rs => by
    by_cases hc : 0 ≤ p.1 ∧ p.1 < (meta.length : Int)
    · have hlt : p.1.toNat < meta.length := by omega
      have hsome : meta[p.1.toNat]? = some meta[p.1.toNat] :=
        List.getElem?_eq_getElem hlt
      simp [List.filterMap_cons, List.filter_cons, hc, hsome,
        filterMap_hits_length meta rs]
    · simp [List.filterMap_cons, List.filter_cons, hc,
        filterMap_hits_length meta rs]

theorem filter_replicate_false {p : Int × ℚ → Bool} {a : Int × ℚ}
    (hpa : p a = false) : ∀ n : Nat, (List.replicate n a).filter p = []
  | 0 => rfl
  | n + 1 => by
    simp [List.replicate_succ, List.filter_cons, hpa, filter_replicate_false hpa n]

theorem nat_list_lt_length_le {l : List Nat} {n : Nat}
    (hnd : l.Nodup) (hlt : ∀ x ∈ l, x < n) : l.length ≤ n := by
  have h1 : l.toFinset.card = l.length := List.toFinset_card_of_nodup hnd
  have h2 : l.toFinset ⊆ Finset.range n := fun x hx =>
    Finset.mem_range.mpr (hlt x (List.mem_toFinset.mp hx))
  have h3 := Finset.card_le_card h2
  rw [h1, Finset.card_range] at h3
  exact h3

theorem filter_inRange_length_le (meta : List MetaRecord)
    (rows : List (Int × ℚ)) (hnd : (rows.map Prod.fst).Nodup) :
    (rows.filter (fun p =>
      decide (0 ≤ p.1 ∧ p.1 < (meta.length : Int)))).length ≤ meta.length := by
  have hsub : (rows.filter (fun p =>
      decide (0 ≤ p.1 ∧ p.1 < (meta.length : Int)))).Sublist rows :=
    List.filter_sublist _
  have hnds : ((rows.filter (fun p =>
      decide (0 ≤ p.1 ∧ p.1 < (meta.length : Int)))).map Prod.fst).Nodup :=
    List.Nodup.sublist (hsub.map Prod.fst) hnd
  have hprop : ∀ p ∈ rows.filter (fun p =>
      decide (0 ≤ p.1 ∧ p.1 < (meta.length : Int))),
      0 ≤ p.1 ∧ p.1 < (meta.length : Int) :=
    fun p hp => of_decide_eq_true (List.mem_filter.mp hp).2
  have hmapmap : (rows.filter (fun p =>
      decide (0 ≤ p.1 ∧ p.1 < (meta.length : Int)))).map (fun p => p.1.toNat) =
      ((rows.filter (fun p =>
        decide (0 ≤ p.1 ∧ p.1 < (meta.length : Int)))).map Prod.fst).map
          Int.toNat := by
    rw [List.map_map]
    rfl
  have hnat : ((rows.filter (fun p =>
      decide (0 ≤ p.1 ∧ p.1 < (meta.length : Int)))).map
        (fun p => p.1.toNat)).Nodup := by
    rw [hmapmap]
    refine List.Nodup.map_on ?_ hnds
    intro x hx y hy hxy
    obtain ⟨px, hpx, rfl⟩ := List.mem_map.mp hx
    obtain ⟨py, hpy, rfl⟩ := List.mem_map.mp hy
    have h1 := (hprop px hpx).1
    have h2 := (hprop py hpy).1
    omega
  have hlt : ∀ n ∈ (rows.filter (fun p =>
      decide (0 ≤ p.1 ∧ p.1 < (meta.length : Int)))).map (fun p => p.1.toNat),
      n < meta.length := by
    intro n hn
    obtain ⟨p, hp, rfl⟩ := List.mem_map.mp hn
    have := hprop p hp
    omega
  have hfin := nat_list_lt_length_le hnat hlt
  simpa using hfin

/-- Claim C10: with a persisted index, non-empty metadata, and a successful
query embedding matching the index's dimension, `retrieve` returns `ok` and
never errors on metadata lookup: every search row whose ordinal is out of
range for the current Metadata Store — including the `-1` padding rows faiss
emits when fewer than `k` vectors are stored — is skipped rather than
failing the call, every returned hit's source and text come from the
metadata record at its matched row's ordinal, and at most
`min k (store count)` hits are returned. -/
theorem retrieve_out_of_range_filtering
    (embed : List (List Char) → Option (List Vec)) (query : List Char)
    (k : Nat) (s : Store) (idx : FaissIndex) (qv : Vec)
    (hidx : s.indexFile = some idx) (hmeta : s.metaFile ≠ [])
    (hq : embed [query] = some [qv]) (hqd : qv.length = idx.d) :
    ∃ hits : List Hit,
      retrieve embed query k s = .ok hits ∧
      hits.length ≤ min k s.metaFile.length ∧
      ∀ h ∈ hits, ∃ (i : Nat) (hi : i < s.metaFile.length) (sc : ℚ),
        ((i : Int), sc) ∈ faissSearchCore idx.vecs qv k ∧
        h = ⟨sc, s.metaFile[i].source, s.metaFile[i].text⟩ := by
  refine ⟨(faissSearchCore idx.vecs qv k).filterMap (fun p =>
      if 0 ≤ p.1 ∧ p.1 < (s.metaFile.length : Int) then
        s.metaFile[p.1.toNat]?.map
          (fun mrec => (⟨p.2, mrec.source, mrec.text⟩ : Hit))
      else none), ?_, ?_, ?_⟩
  · simp [retrieve, hidx, hmeta, hq, faissIndexSearch, hqd, Except.map]
  · rw [filterMap_hits_length]
    refine le_min ?_ ?_
    · exact (List.length_filter_le _ _).trans
        (le_of_eq (faissSearchCore_length idx.vecs qv k))
    · have hpad : (List.replicate (k - min k idx.vecs.length)
          ((-1 : Int), (0 : ℚ))).filter (fun p =>
            decide (0 ≤ p.1 ∧ p.1 < (s.metaFile.length : Int))) = [] := by
        apply filter_replicate_false
        apply decide_eq_false
        rintro ⟨h0, _⟩
        norm_num at h0
      have hsurv : (faissSearchCore idx.vecs qv k).filter (fun p =>
            decide (0 ≤ p.1 ∧ p.1 < (s.metaFile.length : Int))) =
          ((faissRanked idx.vecs qv).take k).filter (fun p =>
            decide (0 ≤ p.1 ∧ p.1 < (s.metaFile.length : Int))) := by
        rw [faissSearchCore_eq, List.filter_append, hpad, List.append_nil]
      rw [hsurv]
      exact filter_inRange_length_le s.metaFile ((faissRanked idx.vecs qv).take k)
        (List.Nodup.sublist ((List.take_sublist k _).map Prod.fst)
          (faissRanked_fst_nodup idx.vecs qv))
  · intro h hmemb
    obtain ⟨p, hp, hfp⟩ := List.mem_filterMap.mp hmemb
    obtain ⟨p1, p2⟩ := p
    by_cases hc : 0 ≤ p1 ∧ p1 < (s.metaFile.length : Int)
    · rw [if_pos hc] at hfp
      have hlt : p1.toNat < s.metaFile.length := by
        obtain ⟨h0, h1⟩ := hc
        omega
      rw [List.getElem?_eq_getElem hlt, Option.map_some'] at hfp
      refine ⟨p1.toNat, hlt, p2, ?_, (Option.some.inj hfp).symm⟩
      have hfst : ((p1.toNat : Int), p2) = (p1, p2) :=
        Prod.ext (Int.toNat_of_nonneg hc.1) rfl
      rw [hfst]
      exact hp
    · rw [if_neg hc] at hfp
      cases hfp

/-- A store with a persisted 2-dimensional index holding `demoVecs` but only
one metadata record, so one search ordinal is out of range for the store. -/
def demoIdxStore : Store := ⟨some ⟨2, demoVecs⟩, [⟨['a'], ['t']⟩]⟩

/-- The provider used for evaluation: every query embeds to `demoQ`. -/
def demoEmbed : List (List Char) → Option (List Vec) := fun _ => some [demoQ]

theorem retrieve_out_of_range_filtering_witness :
    (demoIdxStore.indexFile = some ⟨2, demoVecs⟩ ∧
      demoIdxStore.metaFile ≠ [] ∧
      demoEmbed [['q']] = some [demoQ] ∧
      demoQ.length = (FaissIndex.mk 2 demoVecs).d) ∧
    ∃ hits : List Hit,
      retrieve demoEmbed ['q'] 3 demoIdxStore = .ok hits ∧
      hits.length ≤ min 3 demoIdxStore.metaFile.length ∧
      ∀ h ∈ hits, ∃ (i : Nat) (hi : i < demoIdxStore.metaFile.length) (sc : ℚ),
        ((i : Int), sc) ∈ faissSearchCore (FaissIndex.mk 2 demoVecs).vecs demoQ 3 ∧
        h = ⟨sc, demoIdxStore.metaFile[i].source, demoIdxStore.metaFile[i].text⟩ :=
  ⟨⟨rfl, by decide, rfl, rfl⟩,
    retrieve_out_of_range_filtering demoEmbed ['q'] 3 demoIdxStore
      ⟨2, demoVecs⟩ demoQ rfl (by decide) rfl rfl⟩
